import Mathlib

/-!
Verification of the duplicate-file-finder implementation
(src/DuplicateFileFinder.py) against its specification.

The Python program is shallowly embedded as executable Lean functions:

* A file that the enumerator produced is a `FileEntry`: its path, the
  result of `filepath.stat().st_size` (`none` when `stat` raises
  `OSError`, lines 124-129), and the string that `compute_file_hash`
  returns for it (`""` encodes the failure signal of line 67).
* Python's insertion-ordered `defaultdict(list)` with `d[k].append(x)`
  is embedded as an association list built by `insertGroup` /
  `groupByKey`.
* The grouping pass of `run_scan` (lines 117-184) becomes `filesBySize`,
  `filesByHash`, `emitsOf` and `scanGroups`; the progress bookkeeping
  (lines 148-174) becomes `uniqueSizedFilesCount`,
  `zeroShortcutProcessed`, `hashPassProcessed` and `processedTotal`.
* The directory walk (lines 95-105, `os.walk` with its default
  `followlinks=False`) is embedded over an inductive file-system tree
  `FsEntry`.
* The command-line dispatch of `main` (lines 259-281) becomes
  `mainExitCode`; the progress-bar fraction guard of
  `print_progress_bar` (lines 71-80) becomes `printProgressBarData`,
  with real division embedded over `Rat` and the would-be division by
  zero made explicit by `divChecked`.
-/

/-! ### Generic insertion-ordered grouping (Python `defaultdict(list)`) -/

/-- One step of `d[k].append(x)` on an insertion-ordered dictionary,
embedded as an association list: append `x` to the entry of key `k`,
creating the entry at the end when the key is new. -/
def insertGroup {α K : Type} [DecidableEq K] :
    List (K × List α) → K → α → List (K × List α)
  | [], k, x => [(k, [x])]
  | (k0, xs) :: rest, k, x =>
    if k0 = k then (k0, xs ++ [x]) :: rest
    else (k0, xs) :: insertGroup rest k x

/-- Value stored under key `k` (the empty list when the key is absent). -/
def lookupGroup {α K : Type} [DecidableEq K] :
    List (K × List α) → K → List α
  | [], _ => []
  | (k0, xs) :: rest, k => if k0 = k then xs else lookupGroup rest k

/-- Build the insertion-ordered dictionary for the whole input list:
elements whose key function yields `none` are dropped (the `except
OSError: pass` of lines 128-129 and the `if h:` guard of line 176). -/
def groupByKey {α K : Type} [DecidableEq K] (κ : α → Option K)
    (l : List α) : List (K × List α) :=
  l.foldl (fun acc x =>
    match κ x with
    | some k => insertGroup acc k x
    | none => acc) []

/-! ### The detector state -/

/-- A file as the scan sees it: `statSize` is the result of
`filepath.stat().st_size` (`none` when `stat` raises), `hash` the string
`compute_file_hash` returns for the path (`""` on `OSError`, line 67;
a hex digest, hence nonempty, on success, line 69). -/
structure FileEntry where
  path : String
  statSize : Option Nat
  hash : String
deriving DecidableEq, Repr

/-- `files_by_size` after the loop of lines 124-129: files grouped by
their stat size, files whose `stat` failed dropped. -/
def filesBySize (files : List FileEntry) : List (Nat × List FileEntry) :=
  groupByKey (fun f => f.statSize) files

/-- `files_by_hash` built at lines 170-177 for one same-size candidate
list: files grouped by their digest, files whose hashing failed (empty
digest string) dropped by the `if h:` guard of line 176. -/
def filesByHash (paths : List FileEntry) : List (String × List FileEntry) :=
  groupByKey (fun f => if f.hash = "" then none else some f.hash) paths

/-- A reported duplicate group: the dict
`{'file_size': ..., 'files': [...]}` appended to `duplicates`. -/
structure DuplicateGroup where
  file_size : Nat
  files : List FileEntry
deriving DecidableEq, Repr

/-- Groups that one `files_by_size` item `(size, paths)` appends to
`duplicates` in the loop of lines 156-184: nothing for singleton sizes
(line 157), the whole size group for size `0` (lines 161-168), and every
digest group with more than one member otherwise (lines 179-184). -/
def emitsOf (kv : Nat × List FileEntry) : List DuplicateGroup :=
  if kv.2.length < 2 then []
  else if kv.1 = 0 then [{ file_size := 0, files := kv.2 }]
  else (filesByHash kv.2).filterMap (fun hv =>
    if hv.2.length > 1 then some { file_size := kv.1, files := hv.2 }
    else none)

/-- The final `duplicates` list of `run_scan` (lines 154-184). -/
def scanGroups (files : List FileEntry) : List DuplicateGroup :=
  (filesBySize files).foldl (fun dups kv => dups ++ emitsOf kv) []

/-- Files on which `compute_file_hash` is invoked during the scan: the
members of every size group that reaches the hashing loop of
lines 170-174 (at least two members, nonzero size). -/
def hashedFiles (files : List FileEntry) : List FileEntry :=
  (filesBySize files).foldl (fun acc kv =>
    if kv.2.length < 2 then acc
    else if kv.1 = 0 then acc
    else acc ++ kv.2) []

/-! ### Progress accounting (lines 148-174) -/

/-- `unique_sized_files_count` of line 148: the number of size groups
with fewer than two members (each such group holds exactly one file). -/
def uniqueSizedFilesCount (files : List FileEntry) : Nat :=
  (filesBySize files).countP (fun kv => kv.2.length < 2)

/-- Progress added by the zero-byte shortcut: `processed_count +=
len(paths)` of line 166, summed over the main loop. -/
def zeroShortcutProcessed (files : List FileEntry) : Nat :=
  (filesBySize files).foldl (fun n kv =>
    if kv.2.length < 2 then n
    else if kv.1 = 0 then n + kv.2.length
    else n) 0

/-- Progress added by the hashing pass: `processed_count += 1` of
line 173 executed once per member of every hashed size group. -/
def hashPassProcessed (files : List FileEntry) : Nat :=
  (filesBySize files).foldl (fun n kv =>
    if kv.2.length < 2 then n
    else if kv.1 = 0 then n
    else kv.2.foldl (fun m _ => m + 1) n) 0

/-- Final value of `processed_count` when the loop of lines 156-184
finishes: the unique-size shortcut (line 149) plus the zero-byte
shortcut plus the hash pass. -/
def processedTotal (files : List FileEntry) : Nat :=
  uniqueSizedFilesCount files + zeroShortcutProcessed files +
    hashPassProcessed files

/-! ### Report aggregation (lines 199-232) -/

/-- `total_wasted_bytes` after the reporting loop: each group with at
least one member adds `(count - 1) * size` (line 227); empty groups are
skipped by the `if count == 0: continue` of line 207. -/
def totalWastedBytes (groups : List DuplicateGroup) : Nat :=
  groups.foldl (fun acc g =>
    if g.files.length = 0 then acc
    else acc + (g.files.length - 1) * g.file_size) 0

/-! ### Derived relations used to state the claims -/

/-- Two files are reported together: some emitted duplicate group
contains both. -/
def inSameGroup (files : List FileEntry) (f1 f2 : FileEntry) : Prop :=
  ∃ g, g ∈ scanGroups files ∧ f1 ∈ g.files ∧ f2 ∈ g.files

/-- Digest realism for empty files: `compute_file_hash` is
deterministic on content, and all zero-byte files have the same (empty)
content, so any two successfully stat-ed zero-byte files would receive
the same digest.  The spec treats zero-byte files as trivially
digest-equal. -/
def ZeroHashUniform (files : List FileEntry) : Prop :=
  ∀ g1 ∈ files, ∀ g2 ∈ files,
    g1.statSize = some 0 → g2.statSize = some 0 → g1.hash = g2.hash

/-! ### Directory enumeration (lines 95-105) -/

/-- A file-system entry as the walk classifies it: a non-directory entry
(`file name isLink`) or a directory (`dir name isLink children`).  The
Boolean records whether the entry is a symbolic link. -/
inductive FsEntry : Type where
  | file : String → Bool → FsEntry
  | dir : String → Bool → List FsEntry → FsEntry
deriving Repr

/-- The `all_files` list built by the loop of lines 97-102 from the
children of the scan root: `os.walk` (default `followlinks=False`)
reports non-directory entries of each visited directory, the loop keeps
those that are not symbolic links (line 101), and directories reached
through a symbolic link are never descended into. -/
def enumFiles : List FsEntry → List FsEntry
  | [] => []
  | FsEntry.file n l :: rest =>
    (if l then [] else [FsEntry.file n l]) ++ enumFiles rest
  | FsEntry.dir _ l cs :: rest =>
    (if l then [] else enumFiles cs) ++ enumFiles rest

/-- Every directory entry the walk encounters: all children of the scan
root and, recursively, of every directory that is descended into
(symbolic-link directories are not descended into). -/
def visitedEntries : List FsEntry → List FsEntry
  | [] => []
  | FsEntry.file n l :: rest => FsEntry.file n l :: visitedEntries rest
  | FsEntry.dir n l cs :: rest =>
    FsEntry.dir n l cs :: ((if l then [] else visitedEntries cs) ++
      visitedEntries rest)

/-! ### Command-line dispatch and exit codes (lines 86-105, 259-281) -/

/-- How `run_scan` ends once dispatched on an existing argument: the
directory check of lines 89-91 and the traversal guard of lines 96-105
call `sys.exit(1)`; otherwise `run_scan` returns normally no matter how
many per-file skip warnings were printed along the way. -/
inductive ScanOutcome : Type where
  | ok : Nat → ScanOutcome
  | invalidTarget : ScanOutcome
  | traversalError : ScanOutcome
deriving DecidableEq, Repr

/-- Exit code forced inside `run_scan`, if any: `some 1` for a missing
or invalid directory (line 91) or a traversal failure (line 105),
`none` when the scan completes (with any number of per-file skips). -/
def runScanExit : ScanOutcome → Option Nat
  | ScanOutcome.invalidTarget => some 1
  | ScanOutcome.traversalError => some 1
  | ScanOutcome.ok _ => none

/-- Exit code of `main` (lines 259-281) given the full `sys.argv` and
the outcome of `run_scan` when it is reached: missing arguments exit 1,
`--help`/`-h` exit 0, `scan` without a directory exits 1, `scan dir`
exits with the code `run_scan` forced or 0 on normal return (line 277),
and unknown commands exit 1. -/
def mainExitCode : List String → ScanOutcome → Nat
  | [], _ => 1
  | [_], _ => 1
  | _ :: arg1 :: rest, outcome =>
    if arg1 = "--help" ∨ arg1 = "-h" then 0
    else if arg1 = "scan" then
      match rest with
      | [] => 1
      | _ :: _ =>
        match runScanExit outcome with
        | some c => c
        | none => 0
    else 1

/-! ### Concrete inputs used to instantiate the theorems -/

/-- A readable 1-byte file. -/
def fA : FileEntry := { path := "a", statSize := some 1, hash := "hx" }

/-- A second readable file with the same size and digest as `fA`. -/
def fB : FileEntry := { path := "b", statSize := some 1, hash := "hx" }

/-- A same-size file whose hashing fails (`compute_file_hash` returns
the empty string). -/
def fU : FileEntry := { path := "u", statSize := some 1, hash := "" }

/-- A readable file with a different digest. -/
def fD : FileEntry := { path := "d", statSize := some 1, hash := "hy" }

/-- A zero-byte file. -/
def fZ1 : FileEntry := { path := "z1", statSize := some 0, hash := "he" }

/-- Another zero-byte file. -/
def fZ2 : FileEntry := { path := "z2", statSize := some 0, hash := "he" }

/-- A file whose `stat` call fails. -/
def fBad : FileEntry := { path := "bad", statSize := none, hash := "" }

/-- Input with two true duplicates, one unreadable same-size file and
one same-size file of different content. -/
def demoFiles : List FileEntry := [fA, fB, fU, fD]

/-- Input with two zero-byte files next to regular duplicates. -/
def demoZero : List FileEntry := [fZ1, fA, fZ2, fB]

/-- Input consisting of a single file whose `stat` fails. -/
def demoBad : List FileEntry := [fBad]

/-- A small directory tree: a regular file, a symbolic link to a file, a
real subdirectory holding a regular file, and a symbolic link to a
directory holding a regular file. -/
def demoTree : List FsEntry :=
  [FsEntry.file "a" false, FsEntry.file "s" true,
   FsEntry.dir "d" false [FsEntry.file "b" false],
   FsEntry.dir "ld" true [FsEntry.file "c" false]]

/-! ### Progress bar (lines 71-80) -/

/-- Exact rational division with the division-by-zero error made
explicit: Python raises `ZeroDivisionError` where this returns
`none`. -/
def divChecked (a b : Rat) : Option Rat :=
  if b = 0 then none else some (a / b)

/-- The data `print_progress_bar` computes: the fraction guard of
line 73 (`current / total if total > 0 else 1.0`), then the percentage
`int(fraction * 100)` and the filled length
`int(bar_length * fraction)`; `none` would mean the division-error
branch was reached. -/
def printProgressBarData (current total bar_length : Nat) :
    Option (Nat × Nat) :=
  match (if 0 < total then divChecked (current : Rat) (total : Rat)
         else some 1) with
  | none => none
  | some fraction =>
    some (Int.toNat ⌊fraction * 100⌋,
          Int.toNat ⌊(bar_length : Rat) * fraction⌋)

/-! ## Lemmas about the generic grouping structure -/

theorem lookupGroup_insertGroup_same {α K : Type} [DecidableEq K]
    (acc : List (K × List α)) (k : K) (x : α) :
    lookupGroup (insertGroup acc k x) k = lookupGroup acc k ++ [x] := by
  induction acc with
  | nil => simp [insertGroup, lookupGroup]
  | cons kv rest ih =>
    obtain ⟨k0, xs⟩ := kv
    by_cases h : k0 = k
    · simp [insertGroup, lookupGroup, h]
    · simp [insertGroup, lookupGroup, h, ih]

theorem lookupGroup_insertGroup_ne {α K : Type} [DecidableEq K]
    (acc : List (K × List α)) (k k' : K) (x : α) (hne : k' ≠ k) :
    lookupGroup (insertGroup acc k x) k' = lookupGroup acc k' := by
  have hne' : ¬ k = k' := fun h => hne h.symm
  induction acc with
  | nil => simp [insertGroup, lookupGroup, hne']
  | cons kv rest ih =>
    obtain ⟨k0, xs⟩ := kv
    by_cases h : k0 = k
    · subst h
      simp [insertGroup, lookupGroup, hne']
    · by_cases h' : k0 = k'
      · simp [insertGroup, lookupGroup, h, h', hne]
      · simp [insertGroup, lookupGroup, h, h', ih]

theorem insertGroup_map_fst {α K : Type} [DecidableEq K]
    (acc : List (K × List α)) (k : K) (x : α) :
    (insertGroup acc k x).map Prod.fst =
      if k ∈ acc.map Prod.fst then acc.map Prod.fst
      else acc.map Prod.fst ++ [k] := by
  induction acc with
  | nil => simp [insertGroup]
  | cons kv rest ih =>
    obtain ⟨k0, xs⟩ := kv
    by_cases h : k0 = k
    · simp [insertGroup, h]
    · have h2 : ¬ k = k0 := fun h' => h h'.symm
      simp only [insertGroup, if_neg h, List.map_cons, ih, List.mem_cons]
      by_cases hm : k ∈ rest.map Prod.fst
      · simp [hm, h2]
      · simp [hm, h2]

theorem insertGroup_keys_nodup {α K : Type} [DecidableEq K]
    (acc : List (K × List α)) (k : K) (x : α)
    (h : (acc.map Prod.fst).Nodup) :
    ((insertGroup acc k x).map Prod.fst).Nodup := by
  rw [insertGroup_map_fst]
  by_cases hm : k ∈ acc.map Prod.fst
  · simpa [hm] using h
  · rw [if_neg hm, List.nodup_append]
    refine ⟨h, List.nodup_singleton k, ?_⟩
    intro a ha hak
    rw [List.mem_singleton] at hak
    exact hm (hak ▸ ha)

theorem insertGroup_ne_nil {α K : Type} [DecidableEq K]
    (acc : List (K × List α)) (k : K) (x : α)
    (h : ∀ kv ∈ acc, kv.2 ≠ []) :
    ∀ kv ∈ insertGroup acc k x, kv.2 ≠ [] := by
  induction acc with
  | nil => simp [insertGroup]
  | cons kv0 rest ih =>
    obtain ⟨k0, xs⟩ := kv0
    intro kv hkv
    by_cases hk : k0 = k
    · simp only [insertGroup, if_pos hk, List.mem_cons] at hkv
      rcases hkv with h1 | h2
      · subst h1; simp
      · exact h kv (List.mem_cons_of_mem _ h2)
    · simp only [insertGroup, if_neg hk, List.mem_cons] at hkv
      rcases hkv with h1 | h2
      · subst h1
        exact h (k0, xs) (List.mem_cons_self _ _)
      · exact ih (fun kv' hkv' => h kv' (List.mem_cons_of_mem _ hkv')) kv h2

theorem lookupGroup_foldGroup {α K : Type} [DecidableEq K] (κ : α → Option K) :
    ∀ (l : List α) (acc : List (K × List α)) (k : K),
    lookupGroup
      (l.foldl (fun a x =>
        match κ x with
        | some k' => insertGroup a k' x
        | none => a) acc) k =
      lookupGroup acc k ++ l.filter (fun x => κ x = some k) := by
  intro l
  induction l with
  | nil => intro acc k; simp
  | cons x t ih =>
    intro acc k
    cases hκ : κ x with
    | none =>
      simp only [List.foldl_cons, hκ]
      rw [ih]
      simp [List.filter_cons, hκ]
    | some k0 =>
      simp only [List.foldl_cons, hκ]
      by_cases hk : k0 = k
      · subst hk
        rw [ih, lookupGroup_insertGroup_same]
        simp [List.filter_cons, hκ, List.append_assoc]
      · rw [ih, lookupGroup_insertGroup_ne _ _ _ _ (fun h => hk h.symm)]
        simp [List.filter_cons, hκ, hk]

theorem lookupGroup_groupByKey {α K : Type} [DecidableEq K]
    (κ : α → Option K) (l : List α) (k : K) :
    lookupGroup (groupByKey κ l) k = l.filter (fun x => κ x = some k) := by
  unfold groupByKey
  rw [lookupGroup_foldGroup]
  simp [lookupGroup]

theorem foldGroup_keys_nodup {α K : Type} [DecidableEq K] (κ : α → Option K) :
    ∀ (l : List α) (acc : List (K × List α)),
    (acc.map Prod.fst).Nodup →
    (((l.foldl (fun a x =>
        match κ x with
        | some k' => insertGroup a k' x
        | none => a) acc)).map Prod.fst).Nodup := by
  intro l
  induction l with
  | nil => intro acc h; simpa using h
  | cons x t ih =>
    intro acc h
    cases hκ : κ x with
    | none => simp only [List.foldl_cons, hκ]; exact ih acc h
    | some k0 =>
      simp only [List.foldl_cons, hκ]
      exact ih _ (insertGroup_keys_nodup acc k0 x h)

theorem groupByKey_keys_nodup {α K : Type} [DecidableEq K]
    (κ : α → Option K) (l : List α) :
    ((groupByKey κ l).map Prod.fst).Nodup := by
  unfold groupByKey
  exact foldGroup_keys_nodup κ l [] (by simp)

theorem foldGroup_ne_nil {α K : Type} [DecidableEq K] (κ : α → Option K) :
    ∀ (l : List α) (acc : List (K × List α)),
    (∀ kv ∈ acc, kv.2 ≠ []) →
    ∀ kv ∈ (l.foldl (fun a x =>
        match κ x with
        | some k' => insertGroup a k' x
        | none => a) acc), kv.2 ≠ [] := by
  intro l
  induction l with
  | nil => intro acc h; simpa using h
  | cons x t ih =>
    intro acc h
    cases hκ : κ x with
    | none => simp only [List.foldl_cons, hκ]; exact ih acc h
    | some k0 =>
      simp only [List.foldl_cons, hκ]
      exact ih _ (insertGroup_ne_nil acc k0 x h)

theorem groupByKey_ne_nil {α K : Type} [DecidableEq K]
    (κ : α → Option K) (l : List α) :
    ∀ kv ∈ groupByKey κ l, kv.2 ≠ [] := by
  unfold groupByKey
  exact foldGroup_ne_nil κ l [] (by simp)

theorem lookupGroup_eq_of_mem {α K : Type} [DecidableEq K]
    {acc : List (K × List α)} {k : K} {xs : List α}
    (hnd : (acc.map Prod.fst).Nodup) (hmem : (k, xs) ∈ acc) :
    lookupGroup acc k = xs := by
  induction acc with
  | nil => cases hmem
  | cons kv0 rest ih =>
    obtain ⟨k0, xs0⟩ := kv0
    simp only [List.map_cons, List.nodup_cons] at hnd
    rcases List.mem_cons.mp hmem with h1 | h2
    · rw [Prod.mk.injEq] at h1
      obtain ⟨hk, hxs⟩ := h1
      simp [lookupGroup, hk, hxs]
    · have hk0 : k0 ≠ k := by
        intro h
        subst h
        exact hnd.1 (List.mem_map.mpr ⟨(k0, xs), h2, rfl⟩)
      simp only [lookupGroup, if_neg hk0]
      exact ih hnd.2 h2

theorem mem_of_lookupGroup_ne_nil {α K : Type} [DecidableEq K]
    {acc : List (K × List α)} {k : K}
    (h : lookupGroup acc k ≠ []) :
    (k, lookupGroup acc k) ∈ acc := by
  induction acc with
  | nil => simp [lookupGroup] at h
  | cons kv0 rest ih =>
    obtain ⟨k0, xs0⟩ := kv0
    by_cases hk : k0 = k
    · subst hk
      simp [lookupGroup]
    · simp only [lookupGroup, if_neg hk] at h ⊢
      exact List.mem_cons_of_mem _ (ih h)

theorem mem_groupByKey_eq {α K : Type} [DecidableEq K]
    {κ : α → Option K} {l : List α} {kv : K × List α}
    (h : kv ∈ groupByKey κ l) :
    kv.2 = l.filter (fun x => κ x = some kv.1) ∧ kv.2 ≠ [] := by
  obtain ⟨k, xs⟩ := kv
  have h1 := lookupGroup_eq_of_mem (groupByKey_keys_nodup κ l) h
  have h2 := lookupGroup_groupByKey κ l k
  exact ⟨by rw [← h1, h2], groupByKey_ne_nil κ l (k, xs) h⟩

theorem groupByKey_mem_self {α K : Type} [DecidableEq K]
    {κ : α → Option K} {l : List α} {x : α} {k : K}
    (hx : x ∈ l) (hk : κ x = some k) :
    (k, l.filter (fun y => κ y = some k)) ∈ groupByKey κ l := by
  have hmem : x ∈ l.filter (fun y => κ y = some k) :=
    List.mem_filter.mpr ⟨hx, by simp [hk]⟩
  have hne : l.filter (fun y => κ y = some k) ≠ [] :=
    List.ne_nil_of_mem hmem
  have hm := @mem_of_lookupGroup_ne_nil α K _ (groupByKey κ l) k
    (by rw [lookupGroup_groupByKey]; exact hne)
  rwa [lookupGroup_groupByKey] at hm

theorem insertGroup_sum_lengths {α K : Type} [DecidableEq K]
    (acc : List (K × List α)) (k : K) (x : α) :
    ((insertGroup acc k x).map (fun kv => kv.2.length)).sum =
      (acc.map (fun kv => kv.2.length)).sum + 1 := by
  induction acc with
  | nil => simp [insertGroup]
  | cons kv0 rest ih =>
    obtain ⟨k0, xs⟩ := kv0
    by_cases h : k0 = k
    · simp only [insertGroup, if_pos h, List.map_cons, List.sum_cons,
        List.length_append, List.length_singleton]
      omega
    · simp only [insertGroup, if_neg h, List.map_cons, List.sum_cons, ih]
      omega

theorem foldGroup_sum_lengths {α K : Type} [DecidableEq K] (κ : α → Option K) :
    ∀ (l : List α) (acc : List (K × List α)),
    (((l.foldl (fun a x =>
        match κ x with
        | some k' => insertGroup a k' x
        | none => a) acc)).map (fun kv => kv.2.length)).sum =
      (acc.map (fun kv => kv.2.length)).sum +
        l.countP (fun x => (κ x).isSome) := by
  intro l
  induction l with
  | nil => intro acc; simp
  | cons x t ih =>
    intro acc
    cases hκ : κ x with
    | none =>
      simp only [List.foldl_cons, hκ, List.countP_cons]
      rw [ih]
      simp [hκ]
    | some k0 =>
      simp only [List.foldl_cons, hκ, List.countP_cons]
      rw [ih, insertGroup_sum_lengths]
      simp [hκ]
      omega

theorem groupByKey_sum_lengths {α K : Type} [DecidableEq K]
    (κ : α → Option K) (l : List α) :
    ((groupByKey κ l).map (fun kv => kv.2.length)).sum =
      l.countP (fun x => (κ x).isSome) := by
  unfold groupByKey
  rw [foldGroup_sum_lengths]
  simp

/-! ## Generic fold helpers -/

theorem foldl_append_eq_flatMap {α β : Type} (f : α → List β) :
    ∀ (l : List α) (init : List β),
    l.foldl (fun acc x => acc ++ f x) init = init ++ l.flatMap f := by
  intro l
  induction l with
  | nil => intro init; simp
  | cons x t ih =>
    intro init
    simp only [List.foldl_cons, List.flatMap_cons, ih, List.append_assoc]

theorem foldl_add_eq_sum {α : Type} (c : α → Nat) :
    ∀ (l : List α) (n : Nat),
    l.foldl (fun m x => m + c x) n = n + (l.map c).sum := by
  intro l
  induction l with
  | nil => intro n; simp
  | cons x t ih =>
    intro n
    simp only [List.foldl_cons, List.map_cons, List.sum_cons, ih]
    omega

theorem foldl_succ_eq_length {α : Type} :
    ∀ (l : List α) (n : Nat),
    l.foldl (fun m _ => m + 1) n = n + l.length := by
  intro l
  induction l with
  | nil => intro n; simp
  | cons x t ih =>
    intro n
    simp only [List.foldl_cons, List.length_cons, ih]
    omega

/-! ## Structure of the emitted duplicate groups -/

theorem scanGroups_eq_flatMap (files : List FileEntry) :
    scanGroups files = (filesBySize files).flatMap emitsOf := by
  unfold scanGroups
  rw [foldl_append_eq_flatMap]
  simp

theorem mem_scanGroups {files : List FileEntry} {g : DuplicateGroup} :
    g ∈ scanGroups files ↔ ∃ kv ∈ filesBySize files, g ∈ emitsOf kv := by
  rw [scanGroups_eq_flatMap]
  simp [List.mem_flatMap]

theorem emitsOf_cases {kv : Nat × List FileEntry} {g : DuplicateGroup}
    (h : g ∈ emitsOf kv) :
    2 ≤ kv.2.length ∧
      ((kv.1 = 0 ∧ g = { file_size := 0, files := kv.2 }) ∨
       (kv.1 ≠ 0 ∧ ∃ hv ∈ filesByHash kv.2, 1 < hv.2.length ∧
          g = { file_size := kv.1, files := hv.2 })) := by
  unfold emitsOf at h
  by_cases h1 : kv.2.length < 2
  · simp [h1] at h
  · by_cases h2 : kv.1 = 0
    · rw [if_neg h1, if_pos h2, List.mem_singleton] at h
      exact ⟨by omega, Or.inl ⟨h2, h⟩⟩
    · rw [if_neg h1, if_neg h2] at h
      rw [List.mem_filterMap] at h
      obtain ⟨hv, hmem, heq⟩ := h
      by_cases h3 : hv.2.length > 1
      · rw [if_pos h3] at heq
        exact ⟨by omega, Or.inr ⟨h2, hv, hmem, h3, (Option.some.inj heq).symm⟩⟩
      · rw [if_neg h3] at heq
        cases heq

theorem emitsOf_zero_mem {kv : Nat × List FileEntry}
    (hlen : 2 ≤ kv.2.length) (hk : kv.1 = 0) :
    ({ file_size := 0, files := kv.2 } : DuplicateGroup) ∈ emitsOf kv := by
  unfold emitsOf
  rw [if_neg (by omega), if_pos hk]
  simp

theorem emitsOf_hash_mem {kv : Nat × List FileEntry}
    {hv : String × List FileEntry}
    (hlen : 2 ≤ kv.2.length) (hk : kv.1 ≠ 0)
    (hmem : hv ∈ filesByHash kv.2) (hlen2 : 1 < hv.2.length) :
    ({ file_size := kv.1, files := hv.2 } : DuplicateGroup) ∈ emitsOf kv := by
  unfold emitsOf
  rw [if_neg (by omega), if_neg hk]
  exact List.mem_filterMap.mpr ⟨hv, hmem, by rw [if_pos hlen2]⟩

theorem mem_of_mem_filesBySize {files : List FileEntry}
    {kv : Nat × List FileEntry} (h : kv ∈ filesBySize files) :
    ∀ f ∈ kv.2, f ∈ files ∧ f.statSize = some kv.1 := by
  intro f hf
  have h1 := (mem_groupByKey_eq h).1
  rw [h1] at hf
  have h2 := List.mem_filter.mp hf
  exact ⟨h2.1, by simpa using h2.2⟩

theorem mem_of_mem_filesByHash {paths : List FileEntry}
    {hv : String × List FileEntry} (h : hv ∈ filesByHash paths) :
    ∀ f ∈ hv.2, f ∈ paths ∧ f.hash = hv.1 ∧ f.hash ≠ "" := by
  intro f hf
  have h1 := (mem_groupByKey_eq h).1
  rw [h1] at hf
  have h2 := List.mem_filter.mp hf
  have h3 : (if f.hash = "" then none else some f.hash) = some hv.1 := by
    simpa using h2.2
  by_cases h4 : f.hash = ""
  · rw [if_pos h4] at h3
    cases h3
  · rw [if_neg h4] at h3
    exact ⟨h2.1, Option.some.inj h3, h4⟩

theorem members_of_mem_emitsOf {files : List FileEntry}
    {kv : Nat × List FileEntry} {g : DuplicateGroup}
    (hkv : kv ∈ filesBySize files) (hg : g ∈ emitsOf kv) :
    g.file_size = kv.1 ∧
      ∀ f ∈ g.files, f ∈ files ∧ f.statSize = some kv.1 := by
  obtain ⟨-, hcase⟩ := emitsOf_cases hg
  rcases hcase with ⟨hk0, hgeq⟩ | ⟨-, hv, hvmem, -, hgeq⟩
  · subst hgeq
    exact ⟨hk0.symm, mem_of_mem_filesBySize hkv⟩
  · subst hgeq
    refine ⟨rfl, ?_⟩
    intro f hf
    exact mem_of_mem_filesBySize hkv f (mem_of_mem_filesByHash hvmem f hf).1

theorem hash_of_mem_emitsOf {kv : Nat × List FileEntry} {g : DuplicateGroup}
    (hk : kv.1 ≠ 0) (hg : g ∈ emitsOf kv) :
    ∃ d, d ≠ "" ∧ ∀ f ∈ g.files, f.hash = d := by
  obtain ⟨-, hcase⟩ := emitsOf_cases hg
  rcases hcase with ⟨hk0, -⟩ | ⟨-, hv, hvmem, hlen, hgeq⟩
  · exact absurd hk0 hk
  · subst hgeq
    refine ⟨hv.1, ?_, ?_⟩
    · obtain ⟨f0, hf0⟩ := List.exists_mem_of_ne_nil _
        (List.ne_nil_of_length_pos (by omega : 0 < hv.2.length))
      have := mem_of_mem_filesByHash hvmem f0 hf0
      exact this.2.1 ▸ this.2.2
    · intro f hf
      exact (mem_of_mem_filesByHash hvmem f hf).2.1

theorem two_le_length_of_mem_ne {α : Type} {a b : α} {l : List α}
    (ha : a ∈ l) (hb : b ∈ l) (hne : a ≠ b) : 2 ≤ l.length := by
  cases l with
  | nil => cases ha
  | cons x t =>
    cases t with
    | nil =>
      rw [List.mem_singleton] at ha hb
      exact absurd (ha.trans hb.symm) hne
    | cons y u =>
      simp only [List.length_cons]
      omega

theorem inSameGroup_char {files : List FileEntry} {f1 f2 : FileEntry}
    {s1 s2 : Nat}
    (hz : ZeroHashUniform files)
    (h1 : f1 ∈ files) (h2 : f2 ∈ files) (hne : f1 ≠ f2)
    (hs1 : f1.statSize = some s1) (hs2 : f2.statSize = some s2)
    (hh1 : s1 ≠ 0 → f1.hash ≠ "") (hh2 : s2 ≠ 0 → f2.hash ≠ "") :
    inSameGroup files f1 f2 ↔ (s1 = s2 ∧ f1.hash = f2.hash) := by
  constructor
  · rintro ⟨g, hg, hm1, hm2⟩
    obtain ⟨kv, hkv, hge⟩ := mem_scanGroups.mp hg
    obtain ⟨-, hmem⟩ := members_of_mem_emitsOf hkv hge
    have e1 := (hmem f1 hm1).2
    have e2 := (hmem f2 hm2).2
    have hs1' : s1 = kv.1 := by
      rw [hs1] at e1
      exact Option.some.inj e1
    have hs2' : s2 = kv.1 := by
      rw [hs2] at e2
      exact Option.some.inj e2
    refine ⟨hs1'.trans hs2'.symm, ?_⟩
    by_cases hk : kv.1 = 0
    · exact hz f1 h1 f2 h2 (by rw [hs1, hs1', hk]) (by rw [hs2, hs2', hk])
    · obtain ⟨d, -, hd⟩ := hash_of_mem_emitsOf hk hge
      rw [hd f1 hm1, hd f2 hm2]
  · rintro ⟨hseq, hheq⟩
    subst hseq
    have hkv : (s1, files.filter (fun f => f.statSize = some s1)) ∈
        filesBySize files := groupByKey_mem_self h1 hs1
    have hf1Z : f1 ∈ files.filter (fun f => f.statSize = some s1) :=
      List.mem_filter.mpr ⟨h1, by simp [hs1]⟩
    have hf2Z : f2 ∈ files.filter (fun f => f.statSize = some s1) :=
      List.mem_filter.mpr ⟨h2, by simp [hs2]⟩
    have hlen : 2 ≤ (files.filter (fun f => f.statSize = some s1)).length :=
      two_le_length_of_mem_ne hf1Z hf2Z hne
    by_cases hk : s1 = 0
    · exact ⟨{ file_size := 0,
               files := files.filter (fun f => f.statSize = some s1) },
        mem_scanGroups.mpr ⟨_, hkv, emitsOf_zero_mem hlen hk⟩, hf1Z, hf2Z⟩
    · have hhne1 : f1.hash ≠ "" := hh1 hk
      have hhne2 : f2.hash ≠ "" := hh2 hk
      have hκ1 : (if f1.hash = "" then none else some f1.hash) =
          some f1.hash := if_neg hhne1
      have hhv : (f1.hash,
          (files.filter (fun f => f.statSize = some s1)).filter
            (fun y => (if y.hash = "" then none else some y.hash) =
              some f1.hash)) ∈
          filesByHash (files.filter (fun f => f.statSize = some s1)) :=
        groupByKey_mem_self hf1Z hκ1
      have hf1W : f1 ∈ (files.filter (fun f => f.statSize = some s1)).filter
          (fun y => (if y.hash = "" then none else some y.hash) =
            some f1.hash) :=
        List.mem_filter.mpr ⟨hf1Z, by simp [hκ1]⟩
      have hf2W : f2 ∈ (files.filter (fun f => f.statSize = some s1)).filter
          (fun y => (if y.hash = "" then none else some y.hash) =
            some f1.hash) :=
        List.mem_filter.mpr ⟨hf2Z, by simp [if_neg hhne2, hheq]⟩
      have hlenW := two_le_length_of_mem_ne hf1W hf2W hne
      exact ⟨{ file_size := s1,
               files := (files.filter (fun f => f.statSize = some s1)).filter
                 (fun y => (if y.hash = "" then none else some y.hash) =
                   some f1.hash) },
        mem_scanGroups.mpr ⟨_, hkv,
          emitsOf_hash_mem hlen hk hhv (by exact hlenW)⟩, hf1W, hf2W⟩

/-! ## Pairwise-disjointness machinery -/

theorem pairwise_flatMap_of {α β : Type} {R : β → β → Prop}
    {f : α → List β} :
    ∀ {l : List α},
    (∀ a ∈ l, (f a).Pairwise R) →
    l.Pairwise (fun a b => ∀ x ∈ f a, ∀ y ∈ f b, R x y) →
    (l.flatMap f).Pairwise R := by
  intro l
  induction l with
  | nil => intro _ _; simp
  | cons a t ih =>
    intro hin hcross
    rw [List.flatMap_cons, List.pairwise_append]
    rw [List.pairwise_cons] at hcross
    refine ⟨hin a (List.mem_cons_self _ _),
      ih (fun b hb => hin b (List.mem_cons_of_mem _ hb)) hcross.2, ?_⟩
    intro x hx y hy
    obtain ⟨b, hb, hyb⟩ := List.mem_flatMap.mp hy
    exact hcross.1 b hb x hx y hyb

theorem pairwise_filterMap_of {α β : Type} {R : β → β → Prop}
    {S : α → α → Prop} {f : α → Option β}
    (h : ∀ a b x y, S a b → f a = some x → f b = some y → R x y) :
    ∀ {l : List α}, l.Pairwise S → (l.filterMap f).Pairwise R := by
  intro l
  induction l with
  | nil => intro _; simp
  | cons a t ih =>
    intro hp
    rw [List.pairwise_cons] at hp
    cases hf : f a with
    | none =>
      simp only [List.filterMap_cons, hf]
      exact ih hp.2
    | some x =>
      simp only [List.filterMap_cons, hf]
      rw [List.pairwise_cons]
      refine ⟨?_, ih hp.2⟩
      intro y hy
      obtain ⟨b, hb, hfb⟩ := List.mem_filterMap.mp hy
      exact h a b x y (hp.1 b hb) hf hfb

theorem pairwise_fst_ne_of_keys_nodup {α K : Type}
    {es : List (K × List α)} (h : (es.map Prod.fst).Nodup) :
    es.Pairwise (fun a b => a.1 ≠ b.1) := by
  simpa [List.Nodup, List.pairwise_map] using h

theorem scanGroups_pairwise_path_ne {files : List FileEntry}
    (hnd : (files.map (fun f => f.path)).Nodup) :
    (scanGroups files).Pairwise
      (fun g1 g2 => ∀ f1 ∈ g1.files, ∀ f2 ∈ g2.files,
        f1.path ≠ f2.path) := by
  have hinj := List.inj_on_of_nodup_map hnd
  rw [scanGroups_eq_flatMap]
  apply pairwise_flatMap_of
  · intro kv hkv
    unfold emitsOf
    by_cases h1 : kv.2.length < 2
    · simp [h1]
    · by_cases h2 : kv.1 = 0
      · rw [if_neg h1, if_pos h2]
        exact List.pairwise_singleton _ _
      · rw [if_neg h1, if_neg h2]
        have hpw : (filesByHash kv.2).Pairwise
            (fun a b => a.1 ≠ b.1 ∧ a ∈ filesByHash kv.2 ∧
              b ∈ filesByHash kv.2) :=
          List.Pairwise.imp_of_mem (fun ha hb hne => ⟨hne, ha, hb⟩)
            (pairwise_fst_ne_of_keys_nodup
              (groupByKey_keys_nodup _ kv.2))
        apply pairwise_filterMap_of ?_ hpw
        rintro a b x y ⟨hne, ha, hb⟩ hfa hfb
        by_cases ha2 : a.2.length > 1
        · by_cases hb2 : b.2.length > 1
          · rw [if_pos ha2] at hfa
            rw [if_pos hb2] at hfb
            obtain rfl := Option.some.inj hfa
            obtain rfl := Option.some.inj hfb
            intro f1 hf1 f2 hf2 hpath
            have m1 := mem_of_mem_filesByHash ha f1 hf1
            have m2 := mem_of_mem_filesByHash hb f2 hf2
            have hfiles1 := (mem_of_mem_filesBySize hkv f1 m1.1).1
            have hfiles2 := (mem_of_mem_filesBySize hkv f2 m2.1).1
            have heq : f1 = f2 := hinj hfiles1 hfiles2 hpath
            exact hne (m1.2.1 ▸ m2.2.1 ▸ heq ▸ rfl)
          · rw [if_neg hb2] at hfb
            cases hfb
        · rw [if_neg ha2] at hfa
          cases hfa
  · have hpw : (filesBySize files).Pairwise
        (fun a b => a.1 ≠ b.1 ∧ a ∈ filesBySize files ∧
          b ∈ filesBySize files) :=
      List.Pairwise.imp_of_mem (fun ha hb hne => ⟨hne, ha, hb⟩)
        (pairwise_fst_ne_of_keys_nodup
          (groupByKey_keys_nodup _ files))
    apply List.Pairwise.imp ?_ hpw
    rintro kv1 kv2 ⟨hne, h1, h2⟩
    intro g1 hg1 g2 hg2 f1 hf1 f2 hf2 hpath
    have m1 := (members_of_mem_emitsOf h1 hg1).2 f1 hf1
    have m2 := (members_of_mem_emitsOf h2 hg2).2 f2 hf2
    have heq : f1 = f2 := hinj m1.1 m2.1 hpath
    apply hne
    have := m1.2
    rw [heq, m2.2] at this
    exact (Option.some.inj this).symm

/-! ## Progress accounting lemmas -/

theorem countP_eq_sum_map {α : Type} (p : α → Bool) :
    ∀ l : List α,
    l.countP p = (l.map (fun x => if p x = true then (1:Nat) else 0)).sum := by
  intro l
  induction l with
  | nil => simp
  | cons x t ih =>
    rw [List.countP_cons, ih]
    simp only [List.map_cons, List.sum_cons]
    split_ifs <;> omega

theorem uniqueSizedFilesCount_eq (files : List FileEntry) :
    uniqueSizedFilesCount files =
      ((filesBySize files).map (fun kv =>
        if kv.2.length < 2 then (1:Nat) else 0)).sum := by
  unfold uniqueSizedFilesCount
  rw [countP_eq_sum_map]
  simp only [decide_eq_true_eq]

theorem zeroShortcutProcessed_eq (files : List FileEntry) :
    zeroShortcutProcessed files =
      ((filesBySize files).map (fun kv =>
        if kv.2.length < 2 then (0:Nat)
        else if kv.1 = 0 then kv.2.length else 0)).sum := by
  unfold zeroShortcutProcessed
  have hstep : (fun n (kv : Nat × List FileEntry) =>
      if kv.2.length < 2 then n
      else if kv.1 = 0 then n + kv.2.length
      else n) = (fun m kv => m +
        (if kv.2.length < 2 then (0:Nat)
         else if kv.1 = 0 then kv.2.length else 0)) := by
    funext n kv
    split_ifs <;> omega
  rw [hstep, foldl_add_eq_sum]
  omega

theorem hashPassProcessed_eq (files : List FileEntry) :
    hashPassProcessed files =
      ((filesBySize files).map (fun kv =>
        if kv.2.length < 2 then (0:Nat)
        else if kv.1 = 0 then 0 else kv.2.length)).sum := by
  unfold hashPassProcessed
  have hstep : (fun n (kv : Nat × List FileEntry) =>
      if kv.2.length < 2 then n
      else if kv.1 = 0 then n
      else kv.2.foldl (fun m _ => m + 1) n) = (fun m kv => m +
        (if kv.2.length < 2 then (0:Nat)
         else if kv.1 = 0 then 0 else kv.2.length)) := by
    funext n kv
    rw [foldl_succ_eq_length]
    split_ifs <;> omega
  rw [hstep, foldl_add_eq_sum]
  omega

theorem counters_sum_eq {es : List (Nat × List FileEntry)}
    (hne : ∀ kv ∈ es, kv.2 ≠ []) :
    (es.map (fun kv => if kv.2.length < 2 then (1:Nat) else 0)).sum +
      (es.map (fun kv => if kv.2.length < 2 then (0:Nat)
        else if kv.1 = 0 then kv.2.length else 0)).sum +
      (es.map (fun kv => if kv.2.length < 2 then (0:Nat)
        else if kv.1 = 0 then 0 else kv.2.length)).sum =
    (es.map (fun kv => kv.2.length)).sum := by
  induction es with
  | nil => simp
  | cons kv t ih =>
    simp only [List.map_cons, List.sum_cons]
    have hkv : kv.2 ≠ [] := hne kv (List.mem_cons_self _ _)
    have hlen : kv.2.length ≠ 0 :=
      fun h => hkv (List.eq_nil_of_length_eq_zero h)
    have ht := ih (fun kv' h => hne kv' (List.mem_cons_of_mem _ h))
    split_ifs <;> omega

theorem processedTotal_eq_countP (files : List FileEntry) :
    processedTotal files =
      files.countP (fun f => (f.statSize).isSome) := by
  unfold processedTotal
  rw [uniqueSizedFilesCount_eq, zeroShortcutProcessed_eq,
    hashPassProcessed_eq]
  unfold filesBySize
  rw [counters_sum_eq (groupByKey_ne_nil (fun f => f.statSize) files)]
  exact groupByKey_sum_lengths (fun f => f.statSize) files

/-! ## Zero-byte shortcut lemmas -/

theorem emitsOf_filter_zero (kv : Nat × List FileEntry) :
    (emitsOf kv).filter (fun g => g.file_size = 0) =
      if 2 ≤ kv.2.length ∧ kv.1 = 0
      then [{ file_size := 0, files := kv.2 }] else [] := by
  unfold emitsOf
  by_cases h1 : kv.2.length < 2
  · rw [if_pos h1, if_neg (by omega)]
    rfl
  · by_cases h2 : kv.1 = 0
    · rw [if_neg h1, if_pos h2, if_pos ⟨by omega, h2⟩]
      simp
    · rw [if_neg h1, if_neg h2, if_neg (by tauto)]
      rw [List.filter_eq_nil_iff]
      intro g hg
      obtain ⟨hv, hmem, heq⟩ := List.mem_filterMap.mp hg
      by_cases h3 : hv.2.length > 1
      · rw [if_pos h3] at heq
        obtain rfl := Option.some.inj heq
        simpa using h2
      · rw [if_neg h3] at heq
        cases heq

theorem filter_flatMap_comm {α β : Type} (l : List α) (f : α → List β)
    (p : β → Bool) :
    (l.flatMap f).filter p = l.flatMap (fun x => (f x).filter p) := by
  induction l with
  | nil => simp
  | cons x t ih =>
    simp only [List.flatMap_cons, List.filter_append, ih]

theorem flatMap_zero_nil {es : List (Nat × List FileEntry)}
    (h : ∀ kv ∈ es, kv.1 ≠ 0) :
    es.flatMap (fun kv => if 2 ≤ kv.2.length ∧ kv.1 = 0
      then [({ file_size := 0, files := kv.2 } : DuplicateGroup)]
      else []) = [] := by
  induction es with
  | nil => simp
  | cons kv t ih =>
    rw [List.flatMap_cons,
      if_neg (fun hc => h kv (List.mem_cons_self _ _) hc.2),
      List.nil_append]
    exact ih (fun kv' hkv' => h kv' (List.mem_cons_of_mem _ hkv'))

theorem sum_zero_contrib_nil {es : List (Nat × List FileEntry)}
    (h : ∀ kv ∈ es, kv.1 ≠ 0) :
    (es.map (fun kv => if kv.2.length < 2 then (0:Nat)
      else if kv.1 = 0 then kv.2.length else 0)).sum = 0 := by
  induction es with
  | nil => simp
  | cons kv t ih =>
    simp only [List.map_cons, List.sum_cons]
    rw [ih (fun kv' hkv' => h kv' (List.mem_cons_of_mem _ hkv'))]
    have hcontrib : (if kv.2.length < 2 then (0:Nat)
        else if kv.1 = 0 then kv.2.length else 0) = 0 := by
      split_ifs with ha hb
      · rfl
      · exact absurd hb (h kv (List.mem_cons_self _ _))
      · rfl
    omega

theorem flatMap_zero_entry {es : List (Nat × List FileEntry)}
    {Z : List FileEntry}
    (hnd : (es.map Prod.fst).Nodup) (hmem : (0, Z) ∈ es)
    (hlen : 2 ≤ Z.length) :
    es.flatMap (fun kv => if 2 ≤ kv.2.length ∧ kv.1 = 0
      then [({ file_size := 0, files := kv.2 } : DuplicateGroup)]
      else []) = [{ file_size := 0, files := Z }] := by
  induction es with
  | nil => cases hmem
  | cons kv t ih =>
    simp only [List.map_cons, List.nodup_cons] at hnd
    rw [List.flatMap_cons]
    rcases List.mem_cons.mp hmem with h1 | h2
    · have hkv1 : kv.1 = 0 := by rw [← h1]
      have hkv2 : kv.2 = Z := by rw [← h1]
      have htail : ∀ kv' ∈ t, kv'.1 ≠ 0 := by
        intro kv' hkv' hk0
        exact hnd.1 (hkv1 ▸ hk0 ▸ List.mem_map.mpr ⟨kv', hkv', rfl⟩)
      rw [if_pos ⟨hkv2 ▸ hlen, hkv1⟩, flatMap_zero_nil htail,
        List.append_nil, hkv2]
    · have hk : kv.1 ≠ 0 := by
        intro h0
        exact hnd.1 (h0 ▸ List.mem_map.mpr ⟨(0, Z), h2, rfl⟩)
      rw [if_neg (fun hc => hk hc.2), List.nil_append]
      exact ih hnd.2 h2

theorem sum_zero_contrib_entry {es : List (Nat × List FileEntry)}
    {Z : List FileEntry}
    (hnd : (es.map Prod.fst).Nodup) (hmem : (0, Z) ∈ es)
    (hlen : 2 ≤ Z.length) :
    (es.map (fun kv => if kv.2.length < 2 then (0:Nat)
      else if kv.1 = 0 then kv.2.length else 0)).sum = Z.length := by
  induction es with
  | nil => cases hmem
  | cons kv t ih =>
    simp only [List.map_cons, List.sum_cons]
    simp only [List.map_cons, List.nodup_cons] at hnd
    rcases List.mem_cons.mp hmem with h1 | h2
    · have hkv1 : kv.1 = 0 := by rw [← h1]
      have hkv2 : kv.2 = Z := by rw [← h1]
      have htail : ∀ kv' ∈ t, kv'.1 ≠ 0 := by
        intro kv' hkv' hk0
        exact hnd.1 (hkv1 ▸ hk0 ▸ List.mem_map.mpr ⟨kv', hkv', rfl⟩)
      rw [sum_zero_contrib_nil htail, hkv2,
        if_neg (by omega), if_pos hkv1]
      omega
    · have hk : kv.1 ≠ 0 := by
        intro h0
        exact hnd.1 (h0 ▸ List.mem_map.mpr ⟨(0, Z), h2, rfl⟩)
      rw [ih hnd.2 h2]
      have hcontrib : (if kv.2.length < 2 then (0:Nat)
          else if kv.1 = 0 then kv.2.length else 0) = 0 := by
        by_cases ha : kv.2.length < 2
        · rw [if_pos ha]
        · rw [if_neg ha, if_neg hk]
      omega

theorem hashedFiles_eq (files : List FileEntry) :
    hashedFiles files = (filesBySize files).flatMap (fun kv =>
      if kv.2.length < 2 then []
      else if kv.1 = 0 then [] else kv.2) := by
  unfold hashedFiles
  have hstep : (fun (acc : List FileEntry) (kv : Nat × List FileEntry) =>
      if kv.2.length < 2 then acc
      else if kv.1 = 0 then acc
      else acc ++ kv.2) = (fun acc kv => acc ++
        (if kv.2.length < 2 then []
         else if kv.1 = 0 then [] else kv.2)) := by
    funext acc kv
    split_ifs <;> simp
  rw [hstep, foldl_append_eq_flatMap]
  simp

theorem not_hashed_of_zero_size {files : List FileEntry} {f : FileEntry}
    (hf : f.statSize = some 0) : f ∉ hashedFiles files := by
  rw [hashedFiles_eq]
  intro hmem
  obtain ⟨kv, hkv, hfkv⟩ := List.mem_flatMap.mp hmem
  by_cases h1 : kv.2.length < 2
  · simp [h1] at hfkv
  · by_cases h2 : kv.1 = 0
    · simp [h1, h2] at hfkv
    · rw [if_neg h1, if_neg h2] at hfkv
      have hsz := (mem_of_mem_filesBySize hkv f hfkv).2
      rw [hf] at hsz
      exact h2 (Option.some.inj hsz).symm

theorem scanGroups_filter_zero {files : List FileEntry}
    (hlen : 2 ≤ (files.filter (fun f => f.statSize = some 0)).length) :
    (scanGroups files).filter (fun g => g.file_size = 0) =
      [{ file_size := 0,
         files := files.filter (fun f => f.statSize = some 0) }] := by
  obtain ⟨f0, hf0⟩ := List.exists_mem_of_ne_nil
    (files.filter (fun f => f.statSize = some 0))
    (List.ne_nil_of_length_pos (by omega))
  have hf0m := List.mem_filter.mp hf0
  have hsz : f0.statSize = some 0 := by simpa using hf0m.2
  have hkv : (0, files.filter (fun f => f.statSize = some 0)) ∈
      filesBySize files := groupByKey_mem_self hf0m.1 hsz
  rw [scanGroups_eq_flatMap, filter_flatMap_comm]
  simp only [emitsOf_filter_zero]
  have hnd : ((groupByKey (fun f : FileEntry => f.statSize) files).map
      Prod.fst).Nodup := groupByKey_keys_nodup _ files
  exact flatMap_zero_entry hnd hkv hlen

/-! ## Enumeration lemmas -/

theorem enumFiles_mem_iff : ∀ (cs : List FsEntry) (e : FsEntry),
    e ∈ enumFiles cs ↔
      (e ∈ visitedEntries cs ∧ ∃ p, e = FsEntry.file p false)
  | [], e => by simp [enumFiles, visitedEntries]
  | FsEntry.file n l :: rest, e => by
    have ih := enumFiles_mem_iff rest e
    cases l with
    | false =>
      have hself : e = FsEntry.file n false →
          ∃ p, e = FsEntry.file p false := fun h => ⟨n, h⟩
      simp only [enumFiles, visitedEntries, List.mem_append,
        List.mem_cons, ih]
      simp only [Bool.false_eq_true, if_false, List.mem_singleton]
      tauto
    | true =>
      have himp : e = FsEntry.file n true →
          ¬ ∃ p, e = FsEntry.file p false := by
        rintro rfl ⟨p, hp⟩
        simp at hp
      simp only [enumFiles, visitedEntries, List.mem_append,
        List.mem_cons, ih]
      simp only [if_pos, List.not_mem_nil, List.nil_append, false_or]
      tauto
  | FsEntry.dir n l cs :: rest, e => by
    have ih1 := enumFiles_mem_iff cs e
    have ih2 := enumFiles_mem_iff rest e
    have himp : ∀ b, e = FsEntry.dir n b cs →
        ¬ ∃ p, e = FsEntry.file p false := by
      rintro b rfl ⟨p, hp⟩
      simp at hp
    cases l with
    | false =>
      have hd := himp false
      simp only [enumFiles, visitedEntries, List.mem_append,
        List.mem_cons, ih1, ih2]
      simp only [Bool.false_eq_true, if_false]
      tauto
    | true =>
      have hd := himp true
      simp only [enumFiles, visitedEntries, List.mem_append,
        List.mem_cons, ih1, ih2]
      simp only [if_pos, List.not_mem_nil, List.nil_append, false_or]
      tauto

/-! ## Remaining helper lemmas -/

theorem totalWastedBytes_eq (groups : List DuplicateGroup) :
    totalWastedBytes groups =
      (groups.map (fun g => (g.files.length - 1) * g.file_size)).sum := by
  unfold totalWastedBytes
  have hstep : (fun (acc : Nat) (g : DuplicateGroup) =>
      if g.files.length = 0 then acc
      else acc + (g.files.length - 1) * g.file_size) =
      (fun m g => m + (g.files.length - 1) * g.file_size) := by
    funext acc g
    split_ifs with h
    · rw [h]
      simp
    · rfl
  rw [hstep, foldl_add_eq_sum]
  omega

theorem unreadable_not_in_groups {files : List FileEntry} {f : FileEntry}
    {s : Nat} (hs : f.statSize = some s) (hs0 : s ≠ 0)
    (hfail : f.hash = "") :
    ∀ g ∈ scanGroups files, f ∉ g.files := by
  intro g hg hmem
  obtain ⟨kv, hkv, hge⟩ := mem_scanGroups.mp hg
  obtain ⟨-, hcase⟩ := emitsOf_cases hge
  rcases hcase with ⟨hk0, rfl⟩ | ⟨-, hv, hvmem, -, rfl⟩
  · have hsz := (mem_of_mem_filesBySize hkv f hmem).2
    rw [hs, hk0] at hsz
    exact hs0 (Option.some.inj hsz)
  · exact (mem_of_mem_filesByHash hvmem f hmem).2.2 hfail

theorem zeroShortcutProcessed_of_two {files : List FileEntry}
    (hlen : 2 ≤ (files.filter (fun f => f.statSize = some 0)).length) :
    zeroShortcutProcessed files =
      (files.filter (fun f => f.statSize = some 0)).length := by
  obtain ⟨f0, hf0⟩ := List.exists_mem_of_ne_nil
    (files.filter (fun f => f.statSize = some 0))
    (List.ne_nil_of_length_pos (by omega))
  have hf0m := List.mem_filter.mp hf0
  have hsz : f0.statSize = some 0 := by simpa using hf0m.2
  have hkv : (0, files.filter (fun f => f.statSize = some 0)) ∈
      filesBySize files := groupByKey_mem_self hf0m.1 hsz
  have hnd : ((groupByKey (fun f : FileEntry => f.statSize) files).map
      Prod.fst).Nodup := groupByKey_keys_nodup _ files
  rw [zeroShortcutProcessed_eq]
  exact sum_zero_contrib_entry hnd hkv hlen

/-! ## The claims -/

/-- C1: within one run, two distinct files (both successfully stat-ed,
and successfully hashed whenever their size is nonzero) appear in the
same emitted DuplicateGroup if and only if they have equal size and
equal digest; zero-byte files count as trivially digest-equal, which
the hypothesis `ZeroHashUniform` makes explicit. -/
theorem claim_C1_grouping_iff (files : List FileEntry)
    (f1 f2 : FileEntry) (s1 s2 : Nat) (hz : ZeroHashUniform files)
    (h1 : f1 ∈ files) (h2 : f2 ∈ files) (hne : f1 ≠ f2)
    (hs1 : f1.statSize = some s1) (hs2 : f2.statSize = some s2)
    (hh1 : s1 ≠ 0 → f1.hash ≠ "") (hh2 : s2 ≠ 0 → f2.hash ≠ "") :
    inSameGroup files f1 f2 ↔ (s1 = s2 ∧ f1.hash = f2.hash) :=
  inSameGroup_char hz h1 h2 hne hs1 hs2 hh1 hh2

/-- C1 witness: in the demo input the two equal files land in the same
group. -/
theorem claim_C1_witness : inSameGroup demoFiles fA fB :=
  (claim_C1_grouping_iff demoFiles fA fB 1 1
    (by unfold ZeroHashUniform; decide) (by decide) (by decide)
    (by decide) (by decide) (by decide) (by decide) (by decide)).mpr
    (by decide)

/-- C2 counterexample: for an input with one file whose `stat` fails,
the final processed count is 0 while the enumerated total is 1, so the
accounting claim fails for inputs with undeterminable sizes. -/
theorem claim_C2_counterexample :
    ¬ (processedTotal demoBad = demoBad.length) := by decide

/-- C2 (amended): the summed processed count always equals the number
of files whose size was successfully determined; in particular, when
every `stat` succeeds (including the zero-file input) it equals the
total enumerated file count. -/
theorem claim_C2_progress_accounting (files : List FileEntry) :
    processedTotal files =
        files.countP (fun f => (f.statSize).isSome) ∧
      ((∀ f ∈ files, (f.statSize).isSome) →
        processedTotal files = files.length) := by
  refine ⟨processedTotal_eq_countP files, fun h => ?_⟩
  rw [processedTotal_eq_countP]
  exact List.countP_eq_length.mpr (fun f hf => h f hf)

/-- C2 witness: on an all-stat-ok input the processed count equals the
file count. -/
theorem claim_C2_witness :
    processedTotal demoZero = demoZero.length :=
  (claim_C2_progress_accounting demoZero).2 (by decide)

/-- C3: every emitted DuplicateGroup has at least two members, for
every input. -/
theorem claim_C3_min_group_size (files : List FileEntry) :
    ∀ g ∈ scanGroups files, 2 ≤ g.files.length := by
  intro g hg
  obtain ⟨kv, hkv, hge⟩ := mem_scanGroups.mp hg
  obtain ⟨hlen, hcase⟩ := emitsOf_cases hge
  rcases hcase with ⟨-, rfl⟩ | ⟨-, hv, -, hlen2, rfl⟩
  · exact hlen
  · exact hlen2

/-- C3 witness: the group emitted for the demo input has two members. -/
theorem claim_C3_witness :
    2 ≤ ({ file_size := 1, files := [fA, fB] } :
      DuplicateGroup).files.length :=
  claim_C3_min_group_size demoFiles _ (by decide)

/-- C4: when at least two files are successfully stat-ed at size zero,
exactly one group with representative size 0 is emitted, holding
exactly those files; none of them is ever passed to the hasher; and the
zero-byte shortcut counts exactly all of them as processed. -/
theorem claim_C4_zero_byte_shortcut (files : List FileEntry)
    (hlen : 2 ≤ (files.filter (fun f => f.statSize = some 0)).length) :
    (scanGroups files).filter (fun g => g.file_size = 0) =
        [{ file_size := 0,
           files := files.filter (fun f => f.statSize = some 0) }] ∧
      (∀ f ∈ files.filter (fun f => f.statSize = some 0),
        f ∉ hashedFiles files) ∧
      zeroShortcutProcessed files =
        (files.filter (fun f => f.statSize = some 0)).length := by
  refine ⟨scanGroups_filter_zero hlen, ?_,
    zeroShortcutProcessed_of_two hlen⟩
  intro f hf
  exact not_hashed_of_zero_size
    (by simpa using (List.mem_filter.mp hf).2)

/-- C4 witness: the demo input with two empty files yields exactly one
size-0 group holding them, neither is hashed, and both are counted by
the shortcut. -/
theorem claim_C4_witness :
    (scanGroups demoZero).filter (fun g => g.file_size = 0) =
        [{ file_size := 0,
           files := demoZero.filter (fun f => f.statSize = some 0) }] ∧
      (∀ f ∈ demoZero.filter (fun f => f.statSize = some 0),
        f ∉ hashedFiles demoZero) ∧
      zeroShortcutProcessed demoZero =
        (demoZero.filter (fun f => f.statSize = some 0)).length :=
  claim_C4_zero_byte_shortcut demoZero (by decide)

/-- C5: a same-size file whose hashing fails is excluded from every
emitted group (it matches nothing, not even another unreadable file),
and the remaining files are still grouped exactly by their own sizes
and digests. -/
theorem claim_C5_skip_isolation (files : List FileEntry)
    (f : FileEntry) (s : Nat) (hz : ZeroHashUniform files)
    (_hf : f ∈ files) (hs : f.statSize = some s) (hs0 : s ≠ 0)
    (hfail : f.hash = "") :
    (∀ g ∈ scanGroups files, f ∉ g.files) ∧
      (∀ g1 g2 : FileEntry, ∀ s1 s2 : Nat, g1 ∈ files → g2 ∈ files →
        g1 ≠ g2 → g1.statSize = some s1 → g2.statSize = some s2 →
        (s1 ≠ 0 → g1.hash ≠ "") → (s2 ≠ 0 → g2.hash ≠ "") →
        (inSameGroup files g1 g2 ↔ (s1 = s2 ∧ g1.hash = g2.hash))) :=
  ⟨unreadable_not_in_groups hs hs0 hfail,
   fun _ _ _ _ h1 h2 hne hs1 hs2 hh1 hh2 =>
     inSameGroup_char hz h1 h2 hne hs1 hs2 hh1 hh2⟩

/-- C5 witness: in the demo input the unreadable file `fU` is in no
group while the two readable duplicates still group together. -/
theorem claim_C5_witness :
    (∀ g ∈ scanGroups demoFiles, fU ∉ g.files) ∧
      inSameGroup demoFiles fB fA := by
  have h := claim_C5_skip_isolation demoFiles fU 1
    (by unfold ZeroHashUniform; decide) (by decide) (by decide)
    (by decide) (by decide)
  exact ⟨h.1, (h.2 fB fA 1 1 (by decide) (by decide) (by decide)
    (by decide) (by decide) (by decide) (by decide)).mpr (by decide)⟩

/-- C6: the walk includes an encountered entry in the file list exactly
when it is a regular (non-directory) entry that is not a symbolic link;
symbolic links to files are filtered out and directories behind
symbolic links are never descended into. -/
theorem claim_C6_symlink_exclusion (cs : List FsEntry) (e : FsEntry) :
    e ∈ enumFiles cs ↔
      (e ∈ visitedEntries cs ∧ ∃ p, e = FsEntry.file p false) :=
  enumFiles_mem_iff cs e

/-- C6 witness: in the demo tree the nested regular file is enumerated
while the file symlink and the file inside the symlinked directory are
not. -/
theorem claim_C6_witness :
    FsEntry.file "b" false ∈ enumFiles demoTree ∧
      FsEntry.file "s" true ∉ enumFiles demoTree ∧
      FsEntry.file "c" false ∉ enumFiles demoTree := by
  refine ⟨(claim_C6_symlink_exclusion demoTree _).mpr
    ⟨by simp [demoTree, visitedEntries], "b", rfl⟩, ?_, ?_⟩
  · intro h
    obtain ⟨-, p, hp⟩ := (claim_C6_symlink_exclusion demoTree _).mp h
    simp at hp
  · intro h
    obtain ⟨hv, -⟩ := (claim_C6_symlink_exclusion demoTree _).mp h
    simp [demoTree, visitedEntries] at hv

/-- C7: the `scan` command exits 0 whenever the scan itself completes
(no matter how many per-file skips occurred), exits 1 when the target
is missing or invalid or traversal fails, and exits 1 when the
directory argument is missing. -/
theorem claim_C7_exit_codes (prog d : String) (n : Nat)
    (s : ScanOutcome) :
    mainExitCode [prog, "scan", d] (ScanOutcome.ok n) = 0 ∧
      mainExitCode [prog, "scan", d] ScanOutcome.invalidTarget = 1 ∧
      mainExitCode [prog, "scan", d] ScanOutcome.traversalError = 1 ∧
      mainExitCode [prog, "scan"] s = 1 := by
  refine ⟨?_, ?_, ?_, ?_⟩ <;> simp [mainExitCode, runScanExit]

/-- C8: the reported total wasted bytes equal the sum over all emitted
groups of (member count − 1) × size, in exact natural-number
arithmetic. -/
theorem claim_C8_wasted_bytes (files : List FileEntry) :
    totalWastedBytes (scanGroups files) =
      ((scanGroups files).map
        (fun g => (g.files.length - 1) * g.file_size)).sum :=
  totalWastedBytes_eq (scanGroups files)

/-- C9: when the enumerated paths are distinct, the emitted groups are
pairwise disjoint — no path occurs in two different groups. -/
theorem claim_C9_groups_disjoint (files : List FileEntry)
    (hnd : (files.map (fun f => f.path)).Nodup) :
    (scanGroups files).Pairwise
      (fun g1 g2 => ∀ f1 ∈ g1.files, ∀ f2 ∈ g2.files,
        f1.path ≠ f2.path) :=
  scanGroups_pairwise_path_ne hnd

/-- C9 witness: the demo input that produces two groups (the zero-byte
group and a hash group) has pairwise-disjoint groups. -/
theorem claim_C9_witness :
    (scanGroups demoZero).Pairwise
      (fun g1 g2 => ∀ f1 ∈ g1.files, ∀ f2 ∈ g2.files,
        f1.path ≠ f2.path) :=
  claim_C9_groups_disjoint demoZero (by decide)

/-- C10: the progress-bar computation is total on all pairs of natural
numbers: the `total > 0` guard makes the division-by-zero branch
unreachable, the fraction being defined as 1 when the total is zero. -/
theorem claim_C10_progress_bar_total (current total bar_length : Nat) :
    (printProgressBarData current total bar_length).isSome = true := by
  unfold printProgressBarData
  by_cases h : 0 < total
  · rw [if_pos h]
    unfold divChecked
    have ht : (total : Rat) ≠ 0 := Nat.cast_ne_zero.mpr (by omega)
    rw [if_neg ht]
    rfl
  · rw [if_neg h]
    rfl
